import Mathlib

/-!
Verification of the consensus-algorithms-edu repository: a shallow embedding
of the shared block/ledger data model and of the six consensus strategies
(PBFT, Raft, Paxos, PoW, PoS, DPoS), translated package by package from the
Go sources, together with theorems settling the specification claims.

Modelling conventions, applied uniformly:
  * Go `int` becomes `Int` (block indices, node ids, stakes) or `Nat` where
    the value is a count obtained from `len` (approval counts, list lengths).
  * `time.Now().String()` is non-deterministic, so every operation that
    creates a block takes the timestamp as an explicit `ts : String`
    parameter; the claims quantify over it or fix it concretely.
  * The SHA-256 digest is modelled by `sha256Hex`, an injective encoding of
    the hashed record string (the standard collision-free idealisation of a
    cryptographic digest). Every theorem below depends only on the digest
    being a deterministic function of the record string, except where two
    digests of visibly distinct record strings must differ.
  * Go run-time faults (index out of range, slice bounds out of range,
    `rand.Intn` with a non-positive bound) are modelled by `Except RunErr`;
    the unbounded PoW mining loop takes explicit fuel, and exhausting the
    fuel is a distinct `RunErr.outOfFuel` result so that it is never
    mistaken for a genuine fault of the code.
  * In the Go sources every node holds a pointer to the one shared
    `Blockchain`; the embedding therefore keeps a single `Blockchain` value
    and node structures carry no back-pointer. Where Go copies a struct out
    of a `[]Node` slice (so that writes to the copy are lost), the embedding
    performs the same copy explicitly and discards the update, with a
    comment at the spot.
-/

/-- Model of the SHA-256 hex digest used by every package: an injective
encoding of the record string being hashed (collision-free idealisation).
All claims settled below depend only on determinism of the digest, except
that digests of visibly distinct record strings are distinct. -/
def sha256Hex (s : String) : String := String.append "sha256:" s

/-- Go run-time faults observable in this codebase, plus fuel exhaustion for
the unbounded PoW mining loop. -/
inductive RunErr where
  /-- Index out of range, from `xs[i]` on a slice. -/
  | indexBounds : RunErr
  /-- Slice bounds out of range, from `s[:n]` with `n > len(s)`. -/
  | sliceBounds : RunErr
  /-- Panic of `rand.Intn(n)` when `n <= 0`. -/
  | intnRange : RunErr
  /-- Fuel exhausted while simulating an unbounded loop (not a Go fault). -/
  | outOfFuel : RunErr
deriving Repr, DecidableEq

namespace pbft

/-- Block of the pbft package. -/
structure Block where
  Index : Int
  Timestamp : String
  Data : String
  PrevHash : String
  Hash : String
deriving Repr, DecidableEq, Inhabited

/-- Node of the pbft package; the Go struct also holds a pointer to the one
shared Blockchain, which the embedding keeps as the single ambient value. -/
structure Node where
  ID : Int
  IsPrimary : Bool
  State : String
deriving Repr, DecidableEq

/-- Blockchain of the pbft package: the shared ledger plus the node list. -/
structure Blockchain where
  Blocks : List Block
  Nodes : List Node
deriving Repr, DecidableEq

/-- CalculateHash: digest of index, timestamp, data and previous hash. -/
def calculateHash (b : Block) : String :=
  sha256Hex (toString b.Index ++ b.Timestamp ++ b.Data ++ b.PrevHash)

/-- NewBlock: build the block and fill in its hash. -/
def newBlock (data prevHash : String) (index : Int) (ts : String) : Block :=
  let b : Block := { Index := index, Timestamp := ts, Data := data,
                     PrevHash := prevHash, Hash := "" }
  { b with Hash := calculateHash b }

/-- AddBlock: append a block to the shared chain. -/
def addBlock (bc : Blockchain) (block : Block) : Blockchain :=
  { bc with Blocks := bc.Blocks ++ [block] }

/-- NewBlockchain: chain holding just the genesis block, no nodes yet. -/
def newBlockchain (ts : String) : Blockchain :=
  { Blocks := [newBlock "Genesis Block" "" 0 ts], Nodes := [] }

/-- Go `xs[len(xs)-1]`: the last element, or an index fault when empty. -/
def lastBlock (l : List Block) : Except RunErr Block :=
  match l.getLast? with
  | some b => Except.ok b
  | none => Except.error RunErr.indexBounds

/-- Go `xs[0]`: the first node, or an index fault when empty. -/
def headNode (l : List Node) : Except RunErr Node :=
  match l with
  | [] => Except.error RunErr.indexBounds
  | n :: _ => Except.ok n

/-- ProposeBlock: new block extending the current tip of the shared chain. -/
def proposeBlock (bc : Blockchain) (data ts : String) : Except RunErr Block := do
  let prevBlock ← lastBlock bc.Blocks
  pure (newBlock data prevBlock.Hash (prevBlock.Index + 1) ts)

/-- VerifyBlock: previous-hash must match the tip and the hash must
recompute; reads the tip of the shared chain (Go faults on an empty one). -/
def verifyBlock (bc : Blockchain) (block : Block) : Except RunErr Bool := do
  let prevBlock ← lastBlock bc.Blocks
  if block.PrevHash == prevBlock.Hash then
    pure (block.Hash == calculateHash block)
  else
    pure false

/-- Approval-counting loop of BroadcastBlock over the given node list. -/
def countApprovals (bc : Blockchain) (block : Block) :
    List Node → Except RunErr Nat
  | [] => pure 0
  | _n :: rest => do
    let ok ← verifyBlock bc block
    let c ← countApprovals bc block rest
    pure (if ok then c + 1 else c)

/-- BroadcastBlock: count approvals over all nodes and compare against the
two-thirds threshold `approvals >= 2*totalNodes/3` (Go integer division). -/
def broadcastBlock (bc : Blockchain) (block : Block) : Except RunErr Bool := do
  let approvals ← countApprovals bc block bc.Nodes
  pure (decide (approvals ≥ 2 * bc.Nodes.length / 3))

/-- Commit loop of RunPBFT: every node calls CommitBlock on the one shared
chain, so the block is appended once per node. -/
def commitAll (bc : Blockchain) (block : Block) : Blockchain :=
  bc.Nodes.foldl (fun acc _n => addBlock acc block) bc

/-- Broadcast-then-commit step of RunPBFT: on quorum every node commits the
block to the shared chain, otherwise the chain is left as it was. -/
def commitIfQuorum (bc : Blockchain) (block : Block) : Except RunErr Blockchain := do
  let q ← broadcastBlock bc block
  pure (if q then commitAll bc block else bc)

/-- RunPBFT: the primary (node 0) proposes, then the broadcast/commit step
runs; the read `bc.Nodes[0]` faults when there are no nodes. -/
def runPBFT (bc : Blockchain) (data ts : String) : Except RunErr Blockchain := do
  let _primary ← headNode bc.Nodes
  let newB ← proposeBlock bc data ts
  commitIfQuorum bc newB

/-- NewPBFTNetwork: fresh chain with `size` nodes, node 0 primary. -/
def newPBFTNetwork (size : Nat) (ts : String) : Blockchain :=
  let blockchain := newBlockchain ts
  { blockchain with
    Nodes := (List.range size).map
      (fun i => { ID := (i : Int), IsPrimary := i == 0, State := "" }) }

end pbft

namespace raft

/-- Block of the raft package (same shape as the pbft block). -/
structure Block where
  Index : Int
  Timestamp : String
  Data : String
  PrevHash : String
  Hash : String
deriving Repr, DecidableEq, Inhabited

/-- Node of the raft package; the shared-Blockchain pointer of the Go struct
is kept as the single ambient `Blockchain` value. -/
structure Node where
  ID : Int
  IsLeader : Bool
deriving Repr, DecidableEq

/-- Blockchain of the raft package; `Leader` mirrors the Go pointer field. -/
structure Blockchain where
  Blocks : List Block
  Nodes : List Node
  Leader : Option Node
deriving Repr, DecidableEq

/-- CalculateHash: digest of index, timestamp, data and previous hash. -/
def calculateHash (b : Block) : String :=
  sha256Hex (toString b.Index ++ b.Timestamp ++ b.Data ++ b.PrevHash)

/-- NewBlock: build the block and fill in its hash. -/
def newBlock (data prevHash : String) (index : Int) (ts : String) : Block :=
  let b : Block := { Index := index, Timestamp := ts, Data := data,
                     PrevHash := prevHash, Hash := "" }
  { b with Hash := calculateHash b }

/-- AddBlock: append a block to the shared chain. -/
def addBlock (bc : Blockchain) (block : Block) : Blockchain :=
  { bc with Blocks := bc.Blocks ++ [block] }

/-- NewBlockchain: chain holding just the genesis block, no nodes yet. -/
def newBlockchain (ts : String) : Blockchain :=
  { Blocks := [newBlock "Genesis Block" "" 0 ts], Nodes := [], Leader := none }

/-- Go `xs[len(xs)-1]`: the last element, or an index fault when empty. -/
def lastBlock (l : List Block) : Except RunErr Block :=
  match l.getLast? with
  | some b => Except.ok b
  | none => Except.error RunErr.indexBounds

/-- ProposeBlock: new block extending the current tip of the shared chain. -/
def proposeBlock (bc : Blockchain) (data ts : String) : Except RunErr Block := do
  let prevBlock ← lastBlock bc.Blocks
  pure (newBlock data prevBlock.Hash (prevBlock.Index + 1) ts)

/-- VerifyBlock: previous-hash must match the tip and the hash must
recompute; reads the tip of the shared chain (Go faults on an empty one). -/
def verifyBlock (bc : Blockchain) (block : Block) : Except RunErr Bool := do
  let prevBlock ← lastBlock bc.Blocks
  if block.PrevHash == prevBlock.Hash then
    pure (block.Hash == calculateHash block)
  else
    pure false

/-- Approval-counting loop of BroadcastBlock over the given node list. -/
def countApprovals (bc : Blockchain) (block : Block) :
    List Node → Except RunErr Nat
  | [] => pure 0
  | _n :: rest => do
    let ok ← verifyBlock bc block
    let c ← countApprovals bc block rest
    pure (if ok then c + 1 else c)

/-- BroadcastBlock: count approvals over all nodes and compare against the
strict-majority threshold `approvals > totalNodes/2` (Go integer division). -/
def broadcastBlock (bc : Blockchain) (block : Block) : Except RunErr Bool := do
  let approvals ← countApprovals bc block bc.Nodes
  pure (decide (approvals > bc.Nodes.length / 2))

/-- Commit loop of Lead: every node calls CommitBlock on the one shared
chain, so the block is appended once per node. -/
def commitAll (bc : Blockchain) (block : Block) : Blockchain :=
  bc.Nodes.foldl (fun acc _n => addBlock acc block) bc

/-- Broadcast-then-commit step of Lead: on quorum every node commits the
block to the shared chain, otherwise the chain is left as it was. -/
def commitIfQuorum (bc : Blockchain) (block : Block) : Except RunErr Blockchain := do
  let q ← broadcastBlock bc block
  pure (if q then commitAll bc block else bc)

/-- Lead, called by node `n` on the shared chain: only a leader proposes;
the proposed block goes through the broadcast/commit step. -/
def lead (bc : Blockchain) (n : Node) (data ts : String) :
    Except RunErr Blockchain :=
  if n.IsLeader then do
    let newB ← proposeBlock bc data ts
    commitIfQuorum bc newB
  else
    pure bc

/-- VoteFor: the simplified vote function always approves the candidate. -/
def voteFor (_n : Node) (_candidateID : Int) : Bool := true

/-- NewRaftNetwork: fresh chain with `size` follower nodes. -/
def newRaftNetwork (size : Nat) (ts : String) : Blockchain :=
  let blockchain := newBlockchain ts
  { blockchain with
    Nodes := (List.range size).map
      (fun i => { ID := (i : Int), IsLeader := false }) }

end raft

namespace paxos

/-- Block of the paxos package (same shape as the pbft block). -/
structure Block where
  Index : Int
  Timestamp : String
  Data : String
  PrevHash : String
  Hash : String
deriving Repr, DecidableEq, Inhabited

/-- Proposal of the paxos package. -/
structure Proposal where
  ProposalID : Int
  Data : String
  Accepted : Bool
deriving Repr, DecidableEq

/-- Node of the paxos package: its own proposal list; the shared-Blockchain
pointer of the Go struct is kept as the single ambient value. -/
structure Node where
  ID : Int
  Proposals : List Proposal
deriving Repr, DecidableEq

/-- Blockchain of the paxos package. -/
structure Blockchain where
  Blocks : List Block
  Nodes : List Node
deriving Repr, DecidableEq

/-- CalculateHash: digest of index, timestamp, data and previous hash. -/
def calculateHash (b : Block) : String :=
  sha256Hex (toString b.Index ++ b.Timestamp ++ b.Data ++ b.PrevHash)

/-- NewBlock: build the block and fill in its hash. -/
def newBlock (data prevHash : String) (index : Int) (ts : String) : Block :=
  let b : Block := { Index := index, Timestamp := ts, Data := data,
                     PrevHash := prevHash, Hash := "" }
  { b with Hash := calculateHash b }

/-- AddBlock: append a block to the shared chain. -/
def addBlock (bc : Blockchain) (block : Block) : Blockchain :=
  { bc with Blocks := bc.Blocks ++ [block] }

/-- NewBlockchain: chain holding just the genesis block, no nodes yet. -/
def newBlockchain (ts : String) : Blockchain :=
  { Blocks := [newBlock "Genesis Block" "" 0 ts], Nodes := [] }

/-- Go `xs[len(xs)-1]`: the last element, or an index fault when empty. -/
def lastBlock (l : List Block) : Except RunErr Block :=
  match l.getLast? with
  | some b => Except.ok b
  | none => Except.error RunErr.indexBounds

/-- Go `xs[0]`: the first node, or an index fault when empty. -/
def headNode (l : List Node) : Except RunErr Node :=
  match l with
  | [] => Except.error RunErr.indexBounds
  | n :: _ => Except.ok n

/-- Propose: record a fresh proposal in the calling node and return it.
The updated node is returned alongside; whether the caller keeps it follows
the Go call site. -/
def propose (n : Node) (data : String) (proposalID : Int) : Proposal × Node :=
  let proposal : Proposal := { ProposalID := proposalID, Data := data,
                               Accepted := false }
  (proposal, { n with Proposals := n.Proposals ++ [proposal] })

/-- AcceptProposal: a node accepts exactly when it already holds a proposal
with the same id. The Go body also sets `Accepted` on a range copy of the
matching proposal, a write that is lost, so only the Bool is returned. -/
def acceptProposal (n : Node) (proposal : Proposal) : Bool :=
  n.Proposals.any (fun p => p.ProposalID == proposal.ProposalID)

/-- BroadcastProposal: count accepting nodes and compare against the
strict-majority threshold `approvals > totalNodes/2` (Go integer division). -/
def broadcastProposal (bc : Blockchain) (proposal : Proposal) : Bool :=
  decide (bc.Nodes.countP (fun n => acceptProposal n proposal) >
    bc.Nodes.length / 2)

/-- CommitProposal: build a block from the proposal data against the current
tip and append it to the shared chain. -/
def commitProposal (bc : Blockchain) (proposal : Proposal) (ts : String) :
    Except RunErr Blockchain := do
  let prevBlock ← lastBlock bc.Blocks
  pure (addBlock bc (newBlock proposal.Data prevBlock.Hash (prevBlock.Index + 1) ts))

/-- Commit loop of RunPaxos: every node commits in turn, each against the
tip left by the previous commit. -/
def commitAllNodes (bc : Blockchain) (proposal : Proposal) (ts : String) :
    Except RunErr Blockchain :=
  bc.Nodes.foldlM (fun acc _n => commitProposal acc proposal ts) bc

/-- RunPaxos: Go reads `proposer := bc.Nodes[0]`, a VALUE COPY of the node,
and Propose appends to that copy, which is never written back into
`bc.Nodes`; the embedding performs the same copy and discards the updated
node, exactly as the source does. Then the proposal is broadcast and, on
quorum, committed by every node. -/
def runPaxos (bc : Blockchain) (data : String) (proposalID : Int)
    (ts : String) : Except RunErr Blockchain := do
  let proposer ← headNode bc.Nodes
  let pr := propose proposer data proposalID
  let proposal := pr.1
  -- pr.2, the copy of node 0 holding the new proposal, is discarded:
  -- the Go source never stores it back into bc.Nodes.
  if broadcastProposal bc proposal then
    commitAllNodes bc proposal ts
  else
    pure bc

/-- NewPaxosNetwork: fresh chain with `size` nodes holding no proposals. -/
def newPaxosNetwork (size : Nat) (ts : String) : Blockchain :=
  let blockchain := newBlockchain ts
  { blockchain with
    Nodes := (List.range size).map
      (fun i => { ID := (i : Int), Proposals := [] }) }

end paxos

namespace pow

/-- Block of the pow package: the shared shape plus the mining nonce. -/
structure Block where
  Index : Int
  Timestamp : String
  Data : String
  PrevHash : String
  Hash : String
  Nonce : Int
deriving Repr, DecidableEq, Inhabited

/-- Blockchain of the pow package: only the chain of blocks. -/
structure Blockchain where
  Blocks : List Block
deriving Repr, DecidableEq

/-- CalculateHash: digest of index, timestamp, data, previous hash and
nonce. -/
def calculateHash (b : Block) : String :=
  sha256Hex (toString b.Index ++ b.Timestamp ++ b.Data ++ b.PrevHash ++
    toString b.Nonce)

/-- Go `s[:n]` on a string: the first `n` bytes, or a slice-bounds fault
when `n` exceeds the length of `s`. -/
def sliceTo (s : String) (n : Nat) : Except RunErr String :=
  if n ≤ s.length then Except.ok (s.take n) else Except.error RunErr.sliceBounds

/-- MineBlock: loop `for b.Hash[:4] != "0000"`, incrementing the nonce and
recomputing the hash each iteration. The loop guard slices `b.Hash` BEFORE
the body ever runs; the unbounded search is simulated with fuel, exhaustion
being the distinct `outOfFuel` result. -/
def mineBlock : Nat → Block → Except RunErr Block
  | fuel, b =>
    match sliceTo b.Hash 4 with
    | Except.error e => Except.error e
    | Except.ok pfx =>
      if pfx = "0000" then
        Except.ok b
      else
        match fuel with
        | 0 => Except.error RunErr.outOfFuel
        | f + 1 =>
          let b2 : Block := { b with Nonce := b.Nonce + 1 }
          mineBlock f { b2 with Hash := calculateHash b2 }

/-- NewBlock: build the block with nonce 0 and the zero-value hash "" (the
Go struct literal sets no Hash field), then mine it. -/
def newBlock (data prevHash : String) (index : Int) (ts : String)
    (fuel : Nat) : Except RunErr Block :=
  mineBlock fuel { Index := index, Timestamp := ts, Data := data,
                   PrevHash := prevHash, Hash := "", Nonce := 0 }

/-- Go `xs[len(xs)-1]`: the last element, or an index fault when empty. -/
def lastBlock (l : List Block) : Except RunErr Block :=
  match l.getLast? with
  | some b => Except.ok b
  | none => Except.error RunErr.indexBounds

/-- AddBlock: mine a block against the tip and append it. -/
def addBlock (bc : Blockchain) (data ts : String) (fuel : Nat) :
    Except RunErr Blockchain := do
  let prevBlock ← lastBlock bc.Blocks
  let newB ← newBlock data prevBlock.Hash (prevBlock.Index + 1) ts fuel
  pure { bc with Blocks := bc.Blocks ++ [newB] }

/-- NewBlockchain: mine the genesis block and start the chain with it. -/
def newBlockchain (ts : String) (fuel : Nat) : Except RunErr Blockchain := do
  let genesisBlock ← newBlock "Genesis Block" "" 0 ts fuel
  pure { Blocks := [genesisBlock] }

end pow

namespace pos

/-- Block of the pos package: the shared shape plus the validator tag. -/
structure Block where
  Index : Int
  Timestamp : String
  Data : String
  PrevHash : String
  Hash : String
  Validator : String
deriving Repr, DecidableEq, Inhabited

/-- Stake table: Go `map[string]int` in one fixed enumeration order.
Quantifying theorems over the list covers every enumeration order of the
map; map keys are unique, which theorems state as `Nodup` where needed. -/
abbrev Stakes : Type := List (String × Int)

/-- Blockchain of the pos package. -/
structure Blockchain where
  Blocks : List Block
  Validators : List String
  Stakes : Stakes
deriving DecidableEq

/-- CalculateHash: digest of index, timestamp, data, previous hash and
validator. -/
def calculateHash (b : Block) : String :=
  sha256Hex (toString b.Index ++ b.Timestamp ++ b.Data ++ b.PrevHash ++
    b.Validator)

/-- NewBlock: build the block and fill in its hash. -/
def newBlock (data prevHash : String) (index : Int) (ts validator : String) :
    Block :=
  let b : Block := { Index := index, Timestamp := ts, Data := data,
                     PrevHash := prevHash, Hash := "", Validator := validator }
  { b with Hash := calculateHash b }

/-- Total-stake loop of SelectValidator. -/
def totalStake (stakes : Stakes) : Int :=
  stakes.foldl (fun acc p => acc + p.2) 0

/-- Selection walk of SelectValidator: accumulate stakes in enumeration
order and return the first validator whose running total exceeds the draw;
`none` is the fall-through return of "" after the loop. -/
def selWalkAux (pick : Int) : Int → List (String × Int) → Option String
  | _acc, [] => none
  | acc, (validator, stake) :: rest =>
    if acc + stake > pick then some validator
    else selWalkAux pick (acc + stake) rest

/-- Selection walk started with running total 0. -/
def selWalk (stakes : Stakes) (pick : Int) : Option String :=
  selWalkAux pick 0 stakes

/-- SelectValidator with the uniform draw of `rand.Intn(totalStake)` made an
explicit parameter; `rand.Intn` faults when its bound is not positive. -/
def selectValidator (stakes : Stakes) (pick : Int) : Except RunErr String :=
  if totalStake stakes ≤ 0 then Except.error RunErr.intnRange
  else Except.ok ((selWalk stakes pick).getD "")

/-- Go `xs[len(xs)-1]`: the last element, or an index fault when empty. -/
def lastBlock (l : List Block) : Except RunErr Block :=
  match l.getLast? with
  | some b => Except.ok b
  | none => Except.error RunErr.indexBounds

/-- AddBlock: read the tip, select a validator by stake, then append the
new block carrying that validator. -/
def addBlock (bc : Blockchain) (data ts : String) (pick : Int) :
    Except RunErr Blockchain := do
  let prevBlock ← lastBlock bc.Blocks
  let validator ← selectValidator bc.Stakes pick
  pure { bc with
    Blocks := bc.Blocks ++ [newBlock data prevBlock.Hash (prevBlock.Index + 1)
      ts validator] }

end pos

namespace dpos

/-- Block of the dpos package: the shared shape plus the delegate tag. -/
structure Block where
  Index : Int
  Timestamp : String
  Data : String
  PrevHash : String
  Hash : String
  Delegate : String
deriving Repr, DecidableEq, Inhabited

/-- Voter table: Go `map[string]string` as an association list with unique
keys, updated in place. -/
abbrev Voters : Type := List (String × String)

/-- Blockchain of the dpos package. -/
structure Blockchain where
  Blocks : List Block
  Delegates : List String
  Voters : Voters
deriving DecidableEq

/-- Go map assignment `m[k] = v`: replace the binding of `k` in place, or
add one at the end when `k` is absent. -/
def mapUpdate : List (String × String) → String → String →
    List (String × String)
  | [], k, v => [(k, v)]
  | (k0, v0) :: rest, k, v =>
    if k0 = k then (k, v) :: rest else (k0, v0) :: mapUpdate rest k v

/-- Vote: record (or overwrite) the voter's chosen delegate. -/
def vote (bc : Blockchain) (voter delegate : String) : Blockchain :=
  { bc with Voters := mapUpdate bc.Voters voter delegate }

end dpos

/-- ThresholdPolicy `MajorityOverHalf` written from the specification's own
words (`approvals > total/2` under integer floor division), to be compared
with the inline comparisons of the broadcast operations in the source.
Approval counts and node totals in the source are non-negative `len`-derived
ints, hence `Nat` here, where truncated and floor division coincide. -/
def majorityOverHalf (approvals total : Nat) : Bool :=
  decide (approvals > total / 2)

/-- ThresholdPolicy `TwoThirdsOrMore` written from the specification's own
words (`approvals >= floor(2*total/3)`), to be compared with the inline
comparison of the PBFT broadcast operation in the source. -/
def twoThirdsOrMore (approvals total : Nat) : Bool :=
  decide (approvals ≥ 2 * total / 3)

/-! ## Proof of Work: the mining guard faults before any hash exists -/

/-- Mining a block whose hash field is still the empty string faults at the
very first evaluation of the loop guard `b.Hash[:4]`, whatever the fuel. -/
theorem mineBlock_empty_hash (fuel : Nat) (b : pow.Block) (h : b.Hash = "") :
    pow.mineBlock fuel b = Except.error RunErr.sliceBounds := by
  obtain ⟨i, t, d, p, hsh, n⟩ := b
  subst h
  cases fuel <;> rfl

/-- NewBlock never returns a block: the struct literal leaves `Hash` at the
zero value "", and MineBlock slices it before computing any hash. -/
theorem newBlock_always_faults (data prevHash : String) (index : Int)
    (ts : String) (fuel : Nat) :
    pow.newBlock data prevHash index ts fuel =
      Except.error RunErr.sliceBounds := by
  unfold pow.newBlock
  exact mineBlock_empty_hash fuel _ rfl

/-- NewBlockchain propagates the mining fault of its genesis block. -/
theorem newBlockchain_always_faults (ts : String) (fuel : Nat) :
    pow.newBlockchain ts fuel = Except.error RunErr.sliceBounds := by
  unfold pow.newBlockchain
  rw [newBlock_always_faults]
  rfl

/-- AddBlock never returns a chain: either the tip read faults on an empty
chain, or the mining of the new block faults. -/
theorem addBlock_never_ok (bc : pow.Blockchain) (data ts : String)
    (fuel : Nat) : (pow.addBlock bc data ts fuel).isOk = false := by
  unfold pow.addBlock
  cases h : pow.lastBlock bc.Blocks with
  | error e => rfl
  | ok prev => simp only [newBlock_always_faults]; rfl

/-- C5: the claim says every evaluation of the loop guard `b.Hash[:4]` in
pow.MineBlock is in bounds, the very first one included, so that NewBlock
and NewBlockchain complete without an out-of-range fault. The code refutes
this: NewBlock leaves `Hash` at the Go zero value "", whose length 0 is
below the difficulty 4, so the first guard evaluation faults with a
slice-bounds error for every input and every fuel. -/
theorem pow_mining_guard_slice_fault :
    pow.sliceTo "" 4 = Except.error RunErr.sliceBounds ∧
    ∀ (data prevHash : String) (index : Int) (ts : String) (fuel : Nat),
      pow.newBlock data prevHash index ts fuel =
        Except.error RunErr.sliceBounds :=
  ⟨rfl, newBlock_always_faults⟩

/-- C4: the claim says every Record committed to the PoW ledger, the genesis
of NewBlockchain included, has a hash beginning "0000". On the code no
Record is ever committed at all: NewBlockchain faults while mining the
genesis block and AddBlock never returns a chain, for every input and every
fuel bound, because the mining loop guard slices the still-empty hash. -/
theorem pow_no_record_ever_committed :
    (∀ (ts : String) (fuel : Nat),
      pow.newBlockchain ts fuel = Except.error RunErr.sliceBounds) ∧
    (∀ (bc : pow.Blockchain) (data ts : String) (fuel : Nat),
      (pow.addBlock bc data ts fuel).isOk = false) :=
  ⟨newBlockchain_always_faults, addBlock_never_ok⟩

/-! ## PBFT and Paxos: the concrete two-round scenarios of the tests -/

/-- C1: the claim (and the repository's own TestPBFT) says NewPBFTNetwork(5)
followed by RunPBFT("tx1") and RunPBFT("tx2") leaves exactly 3 records.
The code disagrees: the commit loop of RunPBFT appends the approved block
once per node to the one shared chain, so each round adds 5 copies and the
final ledger holds 11 records, not 3. -/
theorem pbft_two_rounds_yield_eleven_records :
    (pbft.runPBFT (pbft.newPBFTNetwork 5 "") "tx1" "" >>= fun bc1 =>
      pbft.runPBFT bc1 "tx2" "").map (fun bc => bc.Blocks.length) =
      Except.ok 11 := by
  rfl

/-- C2: the claim (and the repository's own TestPaxos) says
NewPaxosNetwork(5) followed by RunPaxos("d1",1) and RunPaxos("d2",2) leaves
3 records in proposal order. The code disagrees: RunPaxos records the new
proposal on a value copy of Nodes[0] that is never written back, so no node
ever holds the proposal, the broadcast counts 0 acceptances out of 5, and
both rounds leave the chain exactly as constructed, with only the genesis
record. -/
theorem paxos_two_rounds_yield_only_genesis :
    (paxos.runPaxos (paxos.newPaxosNetwork 5 "") "d1" 1 "" >>= fun bc1 =>
      paxos.runPaxos bc1 "d2" 2 "") =
      Except.ok (paxos.newPaxosNetwork 5 "") ∧
    (paxos.newPaxosNetwork 5 "").Blocks.length = 1 :=
  ⟨rfl, rfl⟩

/-- C3: the claim says every reachable ledger satisfies
`Blocks[i].PrevHash = Blocks[i-1].Hash` for all `i > 0`. The code refutes
it on a state reached by the public operations alone: after
NewPBFTNetwork(5) and one RunPBFT("tx1") the chain holds 6 records (the
approved block committed once per node), and the adjacent duplicates break
the link: Blocks[2].PrevHash is the genesis hash, not Blocks[1].Hash. -/
theorem pbft_round_breaks_prevhash_link :
    (pbft.runPBFT (pbft.newPBFTNetwork 5 "") "tx1" "").map (fun bc =>
      (bc.Blocks.length,
       (bc.Blocks.getD 2 default).PrevHash == (bc.Blocks.getD 1 default).Hash)) =
      Except.ok (6, false) := by
  rfl

/-! ## Quorum arithmetic of the three broadcast operations -/

/-- C6: the quorum evaluation used by the broadcast operations, as pure
threshold computations on the approval count and the node total.
`majorityOverHalf` passes exactly when `approvals > total/2` under floor
division, so a tie at exactly half of an even total fails; `twoThirdsOrMore`
passes exactly when `approvals >= floor(2*total/3)`. PBFT's BroadcastBlock
applies the two-thirds rule to its approval count, while Raft's
BroadcastBlock and Paxos's BroadcastProposal apply the strict-majority rule,
each returning the pure comparison and touching no other state. -/
theorem quorum_rules :
    (∀ a t : Nat, majorityOverHalf a t = true ↔ t / 2 < a) ∧
    (∀ k : Nat, majorityOverHalf k (2 * k) = false) ∧
    (∀ a t : Nat, twoThirdsOrMore a t = true ↔ 2 * t / 3 ≤ a) ∧
    (∀ (bc : pbft.Blockchain) (b : pbft.Block) (n : Nat),
      pbft.countApprovals bc b bc.Nodes = Except.ok n →
      pbft.broadcastBlock bc b = Except.ok (twoThirdsOrMore n bc.Nodes.length)) ∧
    (∀ (bc : raft.Blockchain) (b : raft.Block) (n : Nat),
      raft.countApprovals bc b bc.Nodes = Except.ok n →
      raft.broadcastBlock bc b = Except.ok (majorityOverHalf n bc.Nodes.length)) ∧
    (∀ (bc : paxos.Blockchain) (p : paxos.Proposal),
      paxos.broadcastProposal bc p =
        majorityOverHalf (bc.Nodes.countP (fun nd => paxos.acceptProposal nd p))
          bc.Nodes.length) := by
  refine ⟨?_, ?_, ?_, ?_, ?_, ?_⟩
  · intro a t; simp [majorityOverHalf]
  · intro k; simp [majorityOverHalf]
  · intro a t; simp [twoThirdsOrMore]
  · intro bc b n h
    simp only [pbft.broadcastBlock, h]
    rfl
  · intro bc b n h
    simp only [raft.broadcastBlock, h]
    rfl
  · intro bc p; rfl

/-- Witness for C6: on a 3-node PBFT network a block whose previous hash
matches nothing collects 0 approvals, and the broadcast returns exactly the
two-thirds policy applied to 0 of 3, which fails. -/
theorem quorum_rules_witness :
    pbft.broadcastBlock (pbft.newPBFTNetwork 3 "")
      { Index := 9, Timestamp := "", Data := "x", PrevHash := "zz", Hash := "h" } =
      Except.ok (twoThirdsOrMore 0 3) ∧ twoThirdsOrMore 0 3 = false :=
  ⟨quorum_rules.2.2.2.1 (pbft.newPBFTNetwork 3 "") _ 0 (by rfl), by rfl⟩

/-! ## Dropped proposals leave the ledger untouched -/

/-- C7: whenever the broadcast step of RunPBFT, of Lead or of RunPaxos fails
its quorum threshold, the operation returns with the whole blockchain value,
the Blocks sequence included, exactly as it was: the proposal is dropped and
nothing is appended or retried. For PBFT and Raft the property is stated of
the broadcast-then-commit step that RunPBFT and Lead run on the proposed
block; for Paxos it is stated of RunPaxos itself, whose broadcast uses the
proposal value built from the given data and proposal id. -/
theorem quorum_failure_leaves_ledger :
    (∀ (bc : pbft.Blockchain) (b : pbft.Block),
      pbft.broadcastBlock bc b = Except.ok false →
      pbft.commitIfQuorum bc b = Except.ok bc) ∧
    (∀ (bc : raft.Blockchain) (b : raft.Block),
      raft.broadcastBlock bc b = Except.ok false →
      raft.commitIfQuorum bc b = Except.ok bc) ∧
    (∀ (bc : paxos.Blockchain) (data : String) (proposalID : Int) (ts : String),
      0 < bc.Nodes.length →
      paxos.broadcastProposal bc
        { ProposalID := proposalID, Data := data, Accepted := false } = false →
      paxos.runPaxos bc data proposalID ts = Except.ok bc) := by
  refine ⟨?_, ?_, ?_⟩
  · intro bc b h
    simp only [pbft.commitIfQuorum, h]
    rfl
  · intro bc b h
    simp only [raft.commitIfQuorum, h]
    rfl
  · intro bc data proposalID ts hlen h
    obtain ⟨blocks, nodes⟩ := bc
    cases nodes with
    | nil => simp at hlen
    | cons n rest =>
      simp only [paxos.runPaxos, paxos.headNode, paxos.propose] at *
      simp only [h]
      rfl

/-- Witness for C7: a 2-node PBFT network and a 1-node Raft network each
reject an alien block (0 approvals fail both thresholds), and a 3-node Paxos
network rejects every proposal (no node holds it); in all three cases the
operation hands back the blockchain unchanged. -/
theorem quorum_failure_leaves_ledger_witness :
    pbft.commitIfQuorum (pbft.newPBFTNetwork 2 "")
      { Index := 9, Timestamp := "", Data := "x", PrevHash := "zz", Hash := "h" } =
      Except.ok (pbft.newPBFTNetwork 2 "") ∧
    raft.commitIfQuorum (raft.newRaftNetwork 1 "")
      { Index := 9, Timestamp := "", Data := "x", PrevHash := "zz", Hash := "h" } =
      Except.ok (raft.newRaftNetwork 1 "") ∧
    paxos.runPaxos (paxos.newPaxosNetwork 3 "") "d" 7 "" =
      Except.ok (paxos.newPaxosNetwork 3 "") :=
  ⟨quorum_failure_leaves_ledger.1 _ _ (by rfl),
   quorum_failure_leaves_ledger.2.1 _ _ (by rfl),
   quorum_failure_leaves_ledger.2.2 _ "d" 7 "" (by decide) (by rfl)⟩

/-! ## Proof of Stake: stake-proportional selection -/

/-- Total-stake loop unrolled: the fold equals the running sum. -/
theorem totalStake_foldl (l : pos.Stakes) (a : Int) :
    l.foldl (fun acc p => acc + p.2) a = a + (l.map Prod.snd).sum := by
  induction l generalizing a with
  | nil => simp
  | cons p rest ih => simp [List.foldl_cons, ih, add_assoc]

/-- The total stake is the sum of the stake column. -/
theorem totalStake_eq_sum (l : pos.Stakes) :
    pos.totalStake l = (l.map Prod.snd).sum := by
  simpa using totalStake_foldl l 0

/-- Total stake of a non-empty table, head plus rest. -/
theorem totalStake_cons (v : String) (s : Int) (rest : pos.Stakes) :
    pos.totalStake ((v, s) :: rest) = s + pos.totalStake rest := by
  simp [totalStake_eq_sum]

/-- Non-negative stakes sum to a non-negative total. -/
theorem totalStake_nonneg (l : pos.Stakes) (h : ∀ p ∈ l, 0 ≤ p.2) :
    0 ≤ pos.totalStake l := by
  rw [totalStake_eq_sum]
  apply List.sum_nonneg
  intro x hx
  obtain ⟨p, hp, rfl⟩ := List.mem_map.mp hx
  exact h p hp

/-- The selection walk depends only on the difference of draw and running
total, so the accumulator can always be rebased to zero. -/
theorem selWalkAux_shift (l : pos.Stakes) (pick acc : Int) :
    pos.selWalkAux pick acc l = pos.selWalkAux (pick - acc) 0 l := by
  induction l generalizing pick acc with
  | nil => rfl
  | cons p rest ih =>
    obtain ⟨v, s⟩ := p
    simp only [pos.selWalkAux]
    rw [ih pick (acc + s), ih (pick - acc) (0 + s)]
    have ha : pick - (acc + s) = pick - acc - (0 + s) := by omega
    exact if_congr (by constructor <;> intro <;> omega) rfl (by rw [ha])

/-- One step of the selection walk: the head wins draws below its stake,
and the rest of the walk sees the draw shifted down by the head stake. -/
theorem selWalk_cons (v : String) (s : Int) (rest : pos.Stakes) (pick : Int) :
    pos.selWalk ((v, s) :: rest) pick =
      if s > pick then some v else pos.selWalk rest (pick - s) := by
  unfold pos.selWalk
  simp only [pos.selWalkAux, zero_add]
  rw [selWalkAux_shift rest pick s]

/-- A selected validator is one of the table's participants. -/
theorem selWalk_mem (l : pos.Stakes) (pick : Int) (v : String)
    (h : pos.selWalk l pick = some v) : v ∈ l.map Prod.fst := by
  induction l generalizing pick with
  | nil => simp [pos.selWalk, pos.selWalkAux] at h
  | cons p rest ih =>
    obtain ⟨v0, s0⟩ := p
    rw [selWalk_cons] at h
    by_cases hc : s0 > pick
    · simp [hc] at h
      simp [h]
    · simp [hc] at h
      simp [ih _ h]

/-- With non-negative stakes, every draw below the total stake selects some
validator: the fall-through return after the walk is never reached. -/
theorem selWalk_isSome (l : pos.Stakes) (pick : Int)
    (hnn : ∀ p ∈ l, 0 ≤ p.2) (h0 : 0 ≤ pick)
    (hlt : pick < pos.totalStake l) :
    (pos.selWalk l pick).isSome = true := by
  induction l generalizing pick with
  | nil => simp [pos.totalStake] at hlt; omega
  | cons p rest ih =>
    obtain ⟨v0, s0⟩ := p
    rw [selWalk_cons]
    by_cases hc : s0 > pick
    · simp [hc]
    · rw [totalStake_cons] at hlt
      have hs0 : 0 ≤ s0 := hnn (v0, s0) (List.mem_cons_self _ _)
      simp only [hc, if_false]
      exact ih (pick - s0) (fun q hq => hnn q (List.mem_cons_of_mem _ hq))
        (by omega) (by omega)

/-- Counting lemma: with unique participants and non-negative stakes,
exactly `stake(v)` of the draws in `[0, totalStake)` select `v`. -/
theorem selWalk_count (l : pos.Stakes) (v : String) (s : Int)
    (hmem : (v, s) ∈ l) (hnn : ∀ p ∈ l, 0 ≤ p.2)
    (hnd : (l.map Prod.fst).Nodup) :
    ((Finset.Icc (0 : Int) (pos.totalStake l - 1)).filter
      (fun pick => pos.selWalk l pick = some v)).card = s.toNat := by
  induction l with
  | nil => simp at hmem
  | cons p rest ih =>
    obtain ⟨v0, s0⟩ := p
    have hs0 : 0 ≤ s0 := hnn (v0, s0) (List.mem_cons_self _ _)
    have hTr : 0 ≤ pos.totalStake rest :=
      totalStake_nonneg rest (fun q hq => hnn q (List.mem_cons_of_mem _ hq))
    have hT := totalStake_cons v0 s0 rest
    simp only [List.map_cons, List.nodup_cons] at hnd
    obtain ⟨hv0, hndr⟩ := hnd
    rcases List.mem_cons.mp hmem with hhead | htail
    · -- v is the head validator: the picks selecting it are exactly [0, s0)
      obtain ⟨rfl, rfl⟩ := Prod.mk.injEq .. ▸ hhead
      have hset : (Finset.Icc (0 : Int) (pos.totalStake ((v, s) :: rest) - 1)).filter
          (fun pick => pos.selWalk ((v, s) :: rest) pick = some v) =
          Finset.Icc (0 : Int) (s - 1) := by
        ext pick
        simp only [Finset.mem_filter, Finset.mem_Icc, selWalk_cons]
        constructor
        · rintro ⟨⟨h0, hle⟩, hsel⟩
          by_cases hc : s > pick
          · exact ⟨h0, by omega⟩
          · rw [if_neg hc] at hsel
            exact absurd (selWalk_mem rest (pick - s) v hsel) hv0
        · rintro ⟨h0, hle⟩
          rw [hT]
          exact ⟨⟨h0, by omega⟩, by rw [if_pos (by omega)]⟩
      rw [hset, Int.card_Icc]
      congr 1
      omega
    · -- v sits in the tail: shift the picks down by the head stake
      have hvr : v ∈ rest.map Prod.fst := List.mem_map_of_mem Prod.fst htail
      have hne : v ≠ v0 := fun h => hv0 (h ▸ hvr)
      have hset : (Finset.Icc (0 : Int) (pos.totalStake ((v0, s0) :: rest) - 1)).filter
          (fun pick => pos.selWalk ((v0, s0) :: rest) pick = some v) =
          ((Finset.Icc (0 : Int) (pos.totalStake rest - 1)).filter
            (fun q => pos.selWalk rest q = some v)).map
            ⟨fun q => q + s0, add_left_injective s0⟩ := by
        ext pick
        simp only [Finset.mem_map, Finset.mem_filter, Finset.mem_Icc, selWalk_cons,
          Function.Embedding.coeFn_mk]
        constructor
        · rintro ⟨⟨h0, hle⟩, hsel⟩
          rw [hT] at hle
          by_cases hc : s0 > pick
          · rw [if_pos hc] at hsel
            exact absurd (Option.some.inj hsel).symm hne
          · rw [if_neg hc] at hsel
            exact ⟨pick - s0, ⟨⟨by omega, by omega⟩, hsel⟩, by omega⟩
        · rintro ⟨q, ⟨⟨hq0, hqle⟩, hqsel⟩, rfl⟩
          rw [hT]
          refine ⟨⟨by omega, by omega⟩, ?_⟩
          rw [if_neg (by omega)]
          have hq : q + s0 - s0 = q := by omega
          rw [hq]
          exact hqsel
      rw [hset, Finset.card_map]
      exact ih htail (fun q hq => hnn q (List.mem_cons_of_mem _ hq)) hndr

/-- C8: for every stake table with non-negative stakes, unique participants
and total stake T > 0, taken in any fixed enumeration order, every draw in
[0, T) makes the walk of SelectValidator return the first participant whose
running stake sum exceeds the draw (so the fall-through "" return after the
walk is never reached and the full SelectValidator yields that participant),
and for each participant v exactly stake(v) of the T possible draw values
select v: selection probability exactly proportional to stake share. -/
theorem pos_selection_proportional (stakes : pos.Stakes)
    (hnn : ∀ p ∈ stakes, 0 ≤ p.2)
    (hnd : (stakes.map Prod.fst).Nodup)
    (hT : 0 < pos.totalStake stakes) :
    (∀ pick : Int, 0 ≤ pick → pick < pos.totalStake stakes →
      ∃ v : String, pos.selWalk stakes pick = some v ∧
        pos.selectValidator stakes pick = Except.ok v ∧
        v ∈ stakes.map Prod.fst) ∧
    (∀ (v : String) (s : Int), (v, s) ∈ stakes →
      ((Finset.Icc (0 : Int) (pos.totalStake stakes - 1)).filter
        (fun pick => pos.selWalk stakes pick = some v)).card = s.toNat) := by
  constructor
  · intro pick h0 hlt
    obtain ⟨v, hv⟩ := Option.isSome_iff_exists.mp (selWalk_isSome stakes pick hnn h0 hlt)
    refine ⟨v, hv, ?_, selWalk_mem stakes pick v hv⟩
    unfold pos.selectValidator
    rw [if_neg (by omega), hv]
    rfl
  · intro v s hmem
    exact selWalk_count stakes v s hmem hnn hnd

/-- Witness for C8: the stake table of the repository's own PoS scenario,
A with 60 and B with 40, satisfies every hypothesis, so of its 100 draws
exactly 60 select A and exactly 40 select B. -/
theorem pos_selection_proportional_witness :
    (∀ pick : Int, 0 ≤ pick → pick < pos.totalStake [("A", 60), ("B", 40)] →
      ∃ v : String, pos.selWalk [("A", 60), ("B", 40)] pick = some v ∧
        pos.selectValidator [("A", 60), ("B", 40)] pick = Except.ok v ∧
        v ∈ ([("A", 60), ("B", 40)] : pos.Stakes).map Prod.fst) ∧
    (∀ (v : String) (s : Int), (v, s) ∈ ([("A", 60), ("B", 40)] : pos.Stakes) →
      ((Finset.Icc (0 : Int) (pos.totalStake [("A", 60), ("B", 40)] - 1)).filter
        (fun pick => pos.selWalk [("A", 60), ("B", 40)] pick = some v)).card = s.toNat) :=
  pos_selection_proportional [("A", 60), ("B", 40)] (by decide) (by decide) (by decide)

/-- C9: when the stake table sums to zero, proposer selection fails (the
draw `rand.Intn(totalStake)` faults on its non-positive bound, the run-time
realisation of the NoStakeError of the specification), the failure is fatal
to the round, and AddBlock on such a chain surfaces the same error and
appends no record. -/
theorem pos_zero_stake_drops_round (bc : pos.Blockchain) (data ts : String)
    (pick : Int) (hgen : bc.Blocks ≠ []) (h0 : pos.totalStake bc.Stakes = 0) :
    pos.selectValidator bc.Stakes pick = Except.error RunErr.intnRange ∧
    pos.addBlock bc data ts pick = Except.error RunErr.intnRange := by
  have hsel : pos.selectValidator bc.Stakes pick = Except.error RunErr.intnRange := by
    unfold pos.selectValidator
    rw [if_pos (le_of_eq h0)]
  refine ⟨hsel, ?_⟩
  unfold pos.addBlock pos.lastBlock
  cases h : bc.Blocks.getLast? with
  | none => exact absurd (List.getLast?_eq_none_iff.mp h) hgen
  | some prev =>
    simp only [hsel]
    rfl

/-- Witness for C9: a chain with a genesis block and the single validator A
holding stake 0 has zero total stake, and AddBlock fails with the selection
error, appending nothing. -/
theorem pos_zero_stake_drops_round_witness :
    pos.selectValidator ([("A", 0)] : pos.Stakes) 0 = Except.error RunErr.intnRange ∧
    pos.addBlock { Blocks := [pos.newBlock "Genesis Block" "" 0 "" "A"],
                   Validators := ["A"], Stakes := [("A", 0)] } "d" "" 0 =
      Except.error RunErr.intnRange :=
  pos_zero_stake_drops_round
    { Blocks := [pos.newBlock "Genesis Block" "" 0 "" "A"],
      Validators := ["A"], Stakes := [("A", 0)] } "d" "" 0 (by decide) (by decide)

/-! ## Delegated Proof of Stake: votes overwrite -/

/-- Updating the same key twice keeps only the second value, as one update
would. -/
theorem mapUpdate_overwrite (m : dpos.Voters) (k v1 v2 : String) :
    dpos.mapUpdate (dpos.mapUpdate m k v1) k v2 = dpos.mapUpdate m k v2 := by
  induction m with
  | nil => simp [dpos.mapUpdate]
  | cons p rest ih =>
    obtain ⟨k0, v0⟩ := p
    by_cases h : k0 = k
    · simp [dpos.mapUpdate, h]
    · simp [dpos.mapUpdate, h, ih]

/-- C10: a Vote immediately followed by a second Vote from the same voter
leaves the voter table, and with it the whole blockchain value, identical to
performing only the second Vote: the last write wins. -/
theorem dpos_vote_last_write_wins (bc : dpos.Blockchain) (voter d1 d2 : String) :
    dpos.vote (dpos.vote bc voter d1) voter d2 = dpos.vote bc voter d2 := by
  simp [dpos.vote, mapUpdate_overwrite]
